import Mathlib

/-!
Shallow embedding of `QueuedPool.py` (class `QueuedPool` with its `SafeValue`
counters) and proofs of the specification claims about it.

The pool is modelled as a small-step interleaving transition system:

* `PoolSt` is the shared state: the two `multiprocessing.Queue`s as lists,
  the three `SafeValue` counters, the `kill_workers` event, the pool handle
  (`Option Unit`, `none` modelling `self.pool is None`), the per-worker
  program counters, and the program counter of the caller thread executing
  `closePool` / `updateCoreNumber`.
* `stepW` is one atomic action of the loop body of `QueuedPool._workerFunc`
  (each queue/counter operation is one step, so steps of distinct processes
  interleave arbitrarily).
* `stepM` is one atomic action of the caller thread inside `closePool` or
  `updateCoreNumber`; `Choice.callClose` / `Choice.callResize` model the
  call sites, `Choice.gr` models a `getResults` call from another thread.
* Ghost fields (`delivered`, `pushedSentinels`, per-worker `incs`/`decs`)
  record observable history; no modelled operation reads them.

Sequential operations (`addJob`, `getResults`, `__init__` core-count
resolution) are modelled as plain functions translated line by line from the
source.
-/

set_option maxHeartbeats 1000000

namespace QueuedPool

/-- Python values as far as the pool inspects them: the sentinel `None`,
numbers, strings, and lists (`isinstance(job, list)` is the only type test
the source performs on a job). -/
inductive Py : Type where
  | pynone : Py
  | pyint (n : Int) : Py
  | pystr (s : String) : Py
  | pylist (xs : List Py) : Py

mutual

/-- Decidable equality on `Py`. -/
def Py.decEq : (a b : Py) → Decidable (a = b)
  | .pynone, .pynone => .isTrue rfl
  | .pynone, .pyint _ => .isFalse (by intro h; cases h)
  | .pynone, .pystr _ => .isFalse (by intro h; cases h)
  | .pynone, .pylist _ => .isFalse (by intro h; cases h)
  | .pyint _, .pynone => .isFalse (by intro h; cases h)
  | .pyint m, .pyint n =>
    if h : m = n then .isTrue (by rw [h])
    else .isFalse (by intro hh; cases hh; exact h rfl)
  | .pyint _, .pystr _ => .isFalse (by intro h; cases h)
  | .pyint _, .pylist _ => .isFalse (by intro h; cases h)
  | .pystr _, .pynone => .isFalse (by intro h; cases h)
  | .pystr _, .pyint _ => .isFalse (by intro h; cases h)
  | .pystr a, .pystr b =>
    if h : a = b then .isTrue (by rw [h])
    else .isFalse (by intro hh; cases hh; exact h rfl)
  | .pystr _, .pylist _ => .isFalse (by intro h; cases h)
  | .pylist _, .pynone => .isFalse (by intro h; cases h)
  | .pylist _, .pyint _ => .isFalse (by intro h; cases h)
  | .pylist _, .pystr _ => .isFalse (by intro h; cases h)
  | .pylist xs, .pylist ys =>
    match Py.decEqList xs ys with
    | .isTrue h => .isTrue (by rw [h])
    | .isFalse h => .isFalse (by intro hh; cases hh; exact h rfl)

/-- Decidable equality on lists of `Py`. -/
def Py.decEqList : (a b : List Py) → Decidable (a = b)
  | [], [] => .isTrue rfl
  | [], _ :: _ => .isFalse (by intro h; cases h)
  | _ :: _, [] => .isFalse (by intro h; cases h)
  | x :: xs, y :: ys =>
    match Py.decEq x y, Py.decEqList xs ys with
    | .isTrue h1, .isTrue h2 => .isTrue (by rw [h1, h2])
    | .isFalse h1, _ => .isFalse (by intro hh; cases hh; exact h1 rfl)
    | _, .isFalse h2 => .isFalse (by intro hh; cases hh; exact h2 rfl)

end

instance : DecidableEq Py := Py.decEq

/-- Translation of `isinstance(job, list)`. -/
def Py.isList : Py → Bool
  | .pylist _ => true
  | _ => false

/-- Translation of the wrapping in `addJob`:
`if not isinstance(job, list): job = [job]`. -/
def wrapJob (job : Py) : Py :=
  if job.isList then job else .pylist [job]

/-- Program counter of one worker process running `QueuedPool._workerFunc`.
`working v` holds the job value pulled from the input queue but not yet
pushed as a result; `killed` is a process destroyed by `pool.terminate()`
before it finished the loop. -/
inductive WSt : Type where
  | entry : WSt
  | loopTop : WSt
  | working (v : Py) : WSt
  | checkFlag : WSt
  | exiting : WSt
  | exited : WSt
  | killed : WSt
deriving DecidableEq

/-- One worker process: its program counter plus ghost counts of how many
times it executed `self.active_workers.increment()` resp. `.decrement()`. -/
structure Worker : Type where
  st : WSt
  incs : Nat
  decs : Nat
deriving DecidableEq

/-- Program counter of the caller thread. `idle` means no call to
`closePool`/`updateCoreNumber` is in progress; the `c*` states are the
phases of `closePool`, the `r*` states the phases of `updateCoreNumber`
(carrying its `cores` argument); `mError` models an uncaught Python
exception in the caller thread. -/
inductive MainPC : Type where
  | idle : MainPC
  | cCheck : MainPC
  | cPush (k : Nat) : MainPC
  | cWait : MainPC
  | cTerm : MainPC
  | cDone : MainPC
  | rWait (n : Option Int) : MainPC
  | rJoin (n : Option Int) : MainPC
  | rClear (n : Option Int) : MainPC
  | rSet (n : Option Int) : MainPC
  | rStart (n : Option Int) : MainPC
  | mError : MainPC
deriving DecidableEq

/-- Shared state of a `QueuedPool` object together with the program counters
of all processes/threads touching it. `delivered` and `pushedSentinels` are
ghost history fields. -/
structure PoolSt : Type where
  input : List Py
  output : List Py
  delivered : List Py
  totalJobs : Nat
  activeWorkers : Int
  cores : Int
  killFlag : Bool
  pool : Option Unit
  workers : List Worker
  main : MainPC
  pushedSentinels : Nat
deriving DecidableEq

/-- Ambient parameters: the user worker function `func` and the value of
`multiprocessing.cpu_count()` (`none` modelling the platform where it yields
no count, the case guarded by `if cores is None: cores = 1`). -/
structure Params : Type where
  f : Py → Py
  cpu : Option Int

/-- Freshly spawned worker process, about to run `_workerFunc`. -/
def freshW : Worker := ⟨.entry, 0, 0⟩

/-- Translation of the core-count resolution in `QueuedPool.__init__`:
`if cores is None: cores = multiprocessing.cpu_count()` followed by
`if cores is None: cores = 1`. -/
def resolveCoresInit (cores cpu : Option Int) : Int :=
  match cores with
  | some c => c
  | none =>
    match cpu with
    | some n => n
    | none => 1

/-- Translation of the core-count resolution in
`QueuedPool.updateCoreNumber`: only
`if cores is None: cores = multiprocessing.cpu_count()`, with no fallback
to `1`. -/
def resolveCoresUpdate (cores cpu : Option Int) : Option Int :=
  match cores with
  | some c => some c
  | none => cpu

/-- Translation of `QueuedPool.__init__` up to and including `startPool`:
resolve the core count, create empty queues and zeroed counters, then spawn
`cores` workers (`multiprocessing.Pool` refuses a process count below 1,
modelled by the `none` result). -/
def construct (cores cpu : Option Int) : Option PoolSt :=
  let c := resolveCoresInit cores cpu
  if 1 ≤ c then
    some
      { input := []
        output := []
        delivered := []
        totalJobs := 0
        activeWorkers := 0
        cores := c
        killFlag := false
        pool := some ()
        workers := List.replicate c.toNat freshW
        main := .idle
        pushedSentinels := 0 }
  else none

/-- Translation of `QueuedPool.addJob`: increment `total_jobs`, wrap a
non-list job in a one-element list, push to `input_queue`. -/
def addJob (job : Py) (s : PoolSt) : PoolSt :=
  { s with
      totalJobs := s.totalJobs + 1
      input := s.input ++ [wrapJob job] }

/-- Several `addJob` calls in sequence. -/
def addJobs (jobs : List Py) (s : PoolSt) : PoolSt :=
  jobs.foldl (fun t j => addJob j t) s

/-- Translation of the `while True: try: results.append(self.output_queue.get(False)) except: break`
loop of `getResults`, run on the current queue contents: returns the
collected results and the number of `get(False)` attempts (the final,
failing attempt included). -/
def drainLoop : List Py → List Py × Nat
  | [] => ([], 1)
  | v :: q =>
    let r := drainLoop q
    (v :: r.1, r.2 + 1)

/-- Translation of `QueuedPool.getResults`: if `output_queue.empty()` the
list stays empty and no `get` is attempted; otherwise the queue is drained.
Returns the result list, the number of `get(False)` attempts, and the new
state (results moved to the ghost `delivered` history). -/
def getResultsFun (s : PoolSt) : List Py × Nat × PoolSt :=
  if s.output = [] then ([], 0, s)
  else
    let r := drainLoop s.output
    (r.1, r.2, { s with output := [], delivered := s.delivered ++ r.1 })

/-- Effect of `pool.terminate()` on one worker process: a process still in
the loop is destroyed where it stands; a process that already returned from
`_workerFunc` is merely joined. -/
def killW (w : Worker) : Worker :=
  if w.st = .exited then w else { w with st := .killed }

/-- One atomic action of worker `i` running the body of
`QueuedPool._workerFunc`; `none` when worker `i` has no enabled action
(blocked on an empty queue, already exited, or killed). -/
def stepW (f : Py → Py) (s : PoolSt) (i : Nat) : Option PoolSt :=
  match s.workers[i]? with
  | none => none
  | some w =>
    match w.st with
    | .entry =>
      some { s with
                activeWorkers := s.activeWorkers + 1
                workers := s.workers.set i { w with st := .loopTop, incs := w.incs + 1 } }
    | .loopTop =>
      match s.input with
      | [] => none
      | v :: rest =>
        if v = .pynone then
          some { s with input := rest, workers := s.workers.set i { w with st := .exiting } }
        else
          some { s with input := rest, workers := s.workers.set i { w with st := .working v } }
    | .working v =>
      some { s with
                output := s.output ++ [f v]
                workers := s.workers.set i { w with st := .checkFlag } }
    | .checkFlag =>
      some { s with
                workers := s.workers.set i
                  { w with st := if s.killFlag then .exiting else .loopTop } }
    | .exiting =>
      some { s with
                activeWorkers := s.activeWorkers - 1
                workers := s.workers.set i { w with st := .exited, decs := w.decs + 1 } }
    | .exited => none
    | .killed => none

/-- One atomic action of the caller thread inside `closePool` or
`updateCoreNumber`, by program counter:

* `cCheck`: the `if self.output_queue.qsize() == self.total_jobs.value()`
  test; on failure the `time.sleep(0.01)` retry (a stutter step).
* `cPush k`: one `self.input_queue.put(None)` of the
  `for i in range(self.cores.value())` loop, `k` iterations remaining.
* `cWait`: the `while self.input_queue.qsize(): time.sleep(0.1)` poll.
* `cTerm`: `self.pool.close(); self.pool.terminate(); self.pool.join()`.
* `rWait n`: the `while self.active_workers.value() > 0: time.sleep(0.1)` poll.
* `rJoin n`: `self.pool.close(); self.pool.terminate(); self.pool.join()`
  (an `AttributeError` if `self.pool` is `None` — no guard in the source).
* `rClear n`: `self.kill_workers.clear()`.
* `rSet n`: resolve the `cores` argument and `self.cores.set(cores)`
  (a `TypeError` inside `SafeValue.set` if the resolved value is `None`).
* `rStart n`: `self.startPool()`; `multiprocessing.Pool` refuses a process
  count below 1. -/
def stepM (p : Params) (s : PoolSt) : Option PoolSt :=
  match s.main with
  | .idle => none
  | .cCheck =>
    if s.output.length = s.totalJobs then
      some { s with main := .cPush s.cores.toNat }
    else
      some s
  | .cPush (k + 1) =>
    some { s with
              input := s.input ++ [.pynone]
              pushedSentinels := s.pushedSentinels + 1
              main := .cPush k }
  | .cPush 0 => some { s with main := .cWait }
  | .cWait =>
    if s.input = [] then some { s with main := .cTerm } else some s
  | .cTerm =>
    some { s with workers := s.workers.map killW, main := .cDone }
  | .cDone => none
  | .rWait n =>
    if s.activeWorkers > 0 then some s else some { s with main := .rJoin n }
  | .rJoin n =>
    match s.pool with
    | none => some { s with main := .mError }
    | some _ =>
      some { s with workers := s.workers.map killW, main := .rClear n }
  | .rClear n => some { s with killFlag := false, main := .rSet n }
  | .rSet n =>
    match resolveCoresUpdate n p.cpu with
    | none => some { s with main := .mError }
    | some c => some { s with cores := c, main := .rStart n }
  | .rStart _ =>
    if 1 ≤ s.cores then
      some { s with
                workers := List.replicate s.cores.toNat freshW
                pool := some ()
                main := .idle }
    else
      some { s with main := .mError }
  | .mError => none

/-- Scheduling choice: a step of worker `i`, a step of the caller thread
inside `closePool`/`updateCoreNumber`, a `getResults` call, or a call of
`closePool` resp. `updateCoreNumber` while the caller thread is idle. -/
inductive Choice : Type where
  | w (i : Nat) : Choice
  | m : Choice
  | gr : Choice
  | callClose : Choice
  | callResize (n : Option Int) : Choice
deriving DecidableEq

/-- One transition of the whole system. A `callClose` starts `closePool`
(which first runs the guard `if self.pool is not None:` — with no pool it
returns at once); a `callResize` starts `updateCoreNumber` (whose first
action is `self.kill_workers.set()`, with no guard on the pool handle). -/
def step (p : Params) (c : Choice) (s : PoolSt) : Option PoolSt :=
  match c with
  | .w i => stepW p.f s i
  | .m => stepM p s
  | .gr => some (getResultsFun s).2.2
  | .callClose =>
    if s.main = .idle then
      match s.pool with
      | none => some { s with main := .cDone }
      | some _ => some { s with main := .cCheck }
    else none
  | .callResize n =>
    if s.main = .idle then
      some { s with killFlag := true, main := .rWait n }
    else none

/-- Run a list of scheduling choices; fails if a chosen action is not
enabled. -/
def runTrace (p : Params) : List Choice → PoolSt → Option PoolSt
  | [], s => some s
  | c :: tr, s =>
    match step p c s with
    | none => none
    | some t => runTrace p tr t

/-- State of a freshly constructed pool with `c` cores (the constructor has
already spawned the workers) after the caller submitted `jobs` via `addJob`,
with the caller thread idle. -/
def mkIdle (jobs : List Py) (c : Nat) : PoolSt :=
  addJobs jobs
    { input := []
      output := []
      delivered := []
      totalJobs := 0
      activeWorkers := 0
      cores := (c : Int)
      killFlag := false
      pool := some ()
      workers := List.replicate c freshW
      main := .idle
      pushedSentinels := 0 }

/-- State at the moment `closePool` is entered (past its pool-handle guard)
on a pool with `c` cores holding the `jobs` submitted via `addJob`. -/
def initClose (jobs : List Py) (c : Nat) : PoolSt :=
  { mkIdle jobs c with main := .cCheck }

/-- Reachability by some interleaving of worker, `closePool`, and
`getResults` steps from the moment `closePool` is entered. -/
def ReachClose (p : Params) (jobs : List Py) (c : Nat) (s : PoolSt) : Prop :=
  ∃ tr, runTrace p tr (initClose jobs c) = some s

/-- Number of genuine jobs (non-sentinel entries) in a queue. -/
def njobs : List Py → Nat
  | [] => 0
  | v :: t => (if v = Py.pynone then 0 else 1) + njobs t

/-- Number of sentinels (`None` entries) in a queue. -/
def nsent : List Py → Nat
  | [] => 0
  | v :: t => (if v = Py.pynone then 1 else 0) + nsent t

/-- Total weight of a worker list under a weight function. -/
def wsum (g : Worker → Nat) : List Worker → Nat
  | [] => 0
  | w :: ws => g w + wsum g ws

/-- Net contribution of the workers to the `active_workers` counter: each
worker contributed its increments minus its decrements. -/
def isum : List Worker → Int
  | [] => 0
  | w :: ws => ((w.incs : Int) - (w.decs : Int)) + isum ws

/-- Weight of a worker holding a pulled job whose result is not yet pushed. -/
def wWorking (w : Worker) : Nat :=
  match w.st with
  | .working _ => 1
  | _ => 0

/-- Weight of a worker that has consumed a sentinel (about to decrement, or
already returned from the loop). -/
def wExitish (w : Worker) : Nat :=
  match w.st with
  | .exiting => 1
  | .exited => 1
  | _ => 0

/-- Weight of a worker destroyed by `pool.terminate()`. -/
def wKilled (w : Worker) : Nat :=
  match w.st with
  | .killed => 1
  | _ => 0

theorem njobs_append (a b : List Py) : njobs (a ++ b) = njobs a + njobs b := by
  induction a with
  | nil => simp [njobs]
  | cons v t ih => simp [njobs, ih]; omega

theorem nsent_append (a b : List Py) : nsent (a ++ b) = nsent a + nsent b := by
  induction a with
  | nil => simp [nsent]
  | cons v t ih => simp [nsent, ih]; omega

theorem wrapJob_ne_pynone (job : Py) : wrapJob job ≠ Py.pynone := by
  unfold wrapJob
  cases job <;> simp [Py.isList]

theorem wsum_set {g : Worker → Nat} {ws : List Worker} {i : Nat} {w : Worker}
    (h : ws[i]? = some w) (w2 : Worker) :
    wsum g (ws.set i w2) + g w = wsum g ws + g w2 := by
  induction ws generalizing i with
  | nil => simp at h
  | cons a t ih =>
    cases i with
    | zero =>
      simp at h
      subst h
      simp [wsum]
      omega
    | succ j =>
      simp at h
      have := ih h
      simp [wsum, List.set]
      omega

theorem isum_set {ws : List Worker} {i : Nat} {w : Worker}
    (h : ws[i]? = some w) (w2 : Worker) :
    isum (ws.set i w2) + ((w.incs : Int) - (w.decs : Int)) =
      isum ws + ((w2.incs : Int) - (w2.decs : Int)) := by
  induction ws generalizing i with
  | nil => simp at h
  | cons a t ih =>
    cases i with
    | zero =>
      simp at h
      subst h
      simp [isum]
      ring
    | succ j =>
      simp at h
      have := ih h
      simp [isum, List.set]
      omega

theorem wsum_map_killW (g : Worker → Nat) (ws : List Worker) :
    wsum g (ws.map killW) = wsum (fun w => g (killW w)) ws := by
  induction ws with
  | nil => rfl
  | cons a t ih => simp [wsum, ih]

theorem isum_map_killW (ws : List Worker) :
    isum (ws.map killW) = isum ws := by
  induction ws with
  | nil => rfl
  | cons a t ih => simp [isum, ih, killW]; split <;> simp

theorem wsum_replicate (g : Worker → Nat) (n : Nat) (w : Worker) :
    wsum g (List.replicate n w) = n * g w := by
  induction n with
  | zero => simp [wsum]
  | succ m ih => simp [List.replicate, wsum, ih]; ring

theorem isum_replicate (n : Nat) (w : Worker) :
    isum (List.replicate n w) = n * ((w.incs : Int) - (w.decs : Int)) := by
  induction n with
  | zero => simp [isum]
  | succ m ih => simp [List.replicate, isum, ih]; ring

theorem addJobs_cons (j : Py) (t : List Py) (s : PoolSt) :
    addJobs (j :: t) s = addJobs t (addJob j s) := rfl

/-- Fields of `addJobs` in terms of the base state: `addJob` only touches
`total_jobs` and the input queue, each call appending one wrapped job. -/
theorem addJobs_fields (jobs : List Py) (s : PoolSt) :
    (addJobs jobs s).input = s.input ++ jobs.map wrapJob ∧
    (addJobs jobs s).totalJobs = s.totalJobs + jobs.length ∧
    (addJobs jobs s).output = s.output ∧
    (addJobs jobs s).delivered = s.delivered ∧
    (addJobs jobs s).activeWorkers = s.activeWorkers ∧
    (addJobs jobs s).cores = s.cores ∧
    (addJobs jobs s).killFlag = s.killFlag ∧
    (addJobs jobs s).pool = s.pool ∧
    (addJobs jobs s).workers = s.workers ∧
    (addJobs jobs s).main = s.main ∧
    (addJobs jobs s).pushedSentinels = s.pushedSentinels := by
  induction jobs generalizing s with
  | nil => simp [addJobs]
  | cons j t ih =>
    obtain ⟨h1, h2, h3, h4, h5, h6, h7, h8, h9, h10, h11⟩ := ih (addJob j s)
    rw [addJobs_cons]
    refine ⟨?_, ?_, h3, h4, h5, h6, h7, h8, h9, h10, h11⟩
    · rw [h1]; simp [addJob]
    · rw [h2]; simp [addJob]; omega

theorem njobs_map_wrap (jobs : List Py) :
    njobs (jobs.map wrapJob) = jobs.length := by
  induction jobs with
  | nil => rfl
  | cons j t ih => simp [njobs, ih, wrapJob_ne_pynone]; omega

theorem nsent_map_wrap (jobs : List Py) :
    nsent (jobs.map wrapJob) = 0 := by
  induction jobs with
  | nil => rfl
  | cons j t ih => simp [nsent, ih, wrapJob_ne_pynone]

theorem drainLoop_fst (q : List Py) : (drainLoop q).1 = q := by
  induction q with
  | nil => rfl
  | cons v t ih => simp [drainLoop, ih]

theorem le_wsum_of_mem {g : Worker → Nat} {ws : List Worker} {w : Worker}
    (h : w ∈ ws) : g w ≤ wsum g ws := by
  induction ws with
  | nil => simp at h
  | cons a t ih =>
    rcases List.mem_cons.mp h with rfl | hmem
    · simp [wsum]
    · have := ih hmem
      simp [wsum]
      omega

theorem wsum_eq_length_all {g : Worker → Nat} (hg : ∀ w, g w ≤ 1)
    {ws : List Worker} (h : wsum g ws = ws.length) :
    ∀ w ∈ ws, g w = 1 := by
  induction ws with
  | nil => simp
  | cons a t ih =>
    have ha := hg a
    have hrest : wsum g t ≤ t.length := by
      clear h ih
      induction t with
      | nil => simp [wsum]
      | cons b u ihh =>
        have := hg b
        simp [wsum] at ihh ⊢
        omega
    simp [wsum] at h
    intro w hw
    rcases List.mem_cons.mp hw with rfl | hmem
    · omega
    · exact ih (by omega) w hmem

theorem wExitish_le_one (w : Worker) : wExitish w ≤ 1 := by
  unfold wExitish
  cases w.st <;> simp

theorem wExitish_eq_one {w : Worker} (h : wExitish w = 1) :
    w.st = .exiting ∨ w.st = .exited := by
  unfold wExitish at h
  cases hst : w.st <;> simp [hst] at h <;> simp

/-- Shape of the ghost increment/decrement counts of a worker, by program
counter: the counter is incremented exactly once, on entry into the loop,
and decremented exactly once, after leaving the loop; a killed process keeps
whatever it had done (in close runs: the increment but not the decrement). -/
def WShape (w : Worker) : Prop :=
  match w.st with
  | .entry => w.incs = 0 ∧ w.decs = 0
  | .exited => w.incs = 1 ∧ w.decs = 1
  | _ => w.incs = 1 ∧ w.decs = 0

/-- Inductive invariant of the system from the moment `closePool` is entered
on a pool of `c` workers with `N` submitted jobs and no concurrent
`addJob`/`updateCoreNumber`. The phases track: before the count check
succeeds, the queue holds only jobs and every job is either queued, held by
a worker, or already a result; once the check succeeded, all `N` results
exist and the queue holds only sentinels, each of the `c` sentinels being
either queued or already consumed by a worker that is past its loop. -/
structure CloseInv (N c : Nat) (s : PoolSt) : Prop where
  total : s.totalJobs = N
  coresEq : s.cores = (c : Int)
  flag : s.killFlag = false
  wlen : s.workers.length = c
  poolEq : s.pool = some ()
  shapes : ∀ w ∈ s.workers, WShape w
  active : s.activeWorkers = isum s.workers
  notIdle : s.main ≠ .idle
  notErr : s.main ≠ .mError
  notR : ∀ n, s.main ≠ .rWait n ∧ s.main ≠ .rJoin n ∧ s.main ≠ .rClear n ∧
    s.main ≠ .rSet n ∧ s.main ≠ .rStart n
  check : s.main = .cCheck → nsent s.input = 0 ∧ s.pushedSentinels = 0 ∧
    wsum wExitish s.workers = 0 ∧ wsum wKilled s.workers = 0 ∧
    s.output.length + s.delivered.length + wsum wWorking s.workers + njobs s.input = N
  push : ∀ k, s.main = .cPush k → k ≤ c ∧ s.pushedSentinels + k = c ∧
    njobs s.input = 0 ∧ wsum wWorking s.workers = 0 ∧
    s.output.length + s.delivered.length = N ∧
    nsent s.input + wsum wExitish s.workers + k = c ∧ wsum wKilled s.workers = 0
  wait : s.main = .cWait ∨ s.main = .cTerm → s.pushedSentinels = c ∧
    njobs s.input = 0 ∧ wsum wWorking s.workers = 0 ∧
    s.output.length + s.delivered.length = N ∧
    nsent s.input + wsum wExitish s.workers = c ∧ wsum wKilled s.workers = 0
  term : s.main = .cTerm → s.input = []
  done : s.main = .cDone → s.output.length + s.delivered.length = N ∧
    s.input = [] ∧ s.pushedSentinels = c ∧
    ∀ w ∈ s.workers, w.st = .exited ∨ w.st = .killed

/-- Transfer of the invariant to a state differing only in worker data with
all worker counts preserved (and the result total preserved, allowing
`output` to move to `delivered`). -/
theorem CloseInv.transfer {N c : Nat} {s : PoolSt} (hI : CloseInv N c s)
    {t : PoolSt}
    (h1 : t.input = s.input)
    (hsum : t.output.length + t.delivered.length = s.output.length + s.delivered.length)
    (h4 : t.totalJobs = s.totalJobs)
    (h6 : t.cores = s.cores)
    (h7 : t.killFlag = s.killFlag)
    (h8 : t.pool = s.pool)
    (h9 : t.main = s.main)
    (h10 : t.pushedSentinels = s.pushedSentinels)
    (hlen : t.workers.length = s.workers.length)
    (hshape : ∀ w ∈ t.workers, WShape w)
    (hact : t.activeWorkers = isum t.workers)
    (hwork : wsum wWorking t.workers = wsum wWorking s.workers)
    (hex : wsum wExitish t.workers = wsum wExitish s.workers)
    (hkill : wsum wKilled t.workers = wsum wKilled s.workers)
    (hdone : s.main = .cDone → ∀ w ∈ t.workers, w.st = .exited ∨ w.st = .killed) :
    CloseInv N c t := by
  refine ⟨?_, ?_, ?_, ?_, ?_, hshape, hact, ?_, ?_, ?_, ?_, ?_, ?_, ?_, ?_⟩
  · rw [h4, hI.total]
  · rw [h6, hI.coresEq]
  · rw [h7, hI.flag]
  · rw [hlen, hI.wlen]
  · rw [h8, hI.poolEq]
  · rw [h9]; exact hI.notIdle
  · rw [h9]; exact hI.notErr
  · intro n; rw [h9]; exact hI.notR n
  · intro hm
    rw [h9] at hm
    obtain ⟨a1, a2, a3, a4, a5⟩ := hI.check hm
    rw [h1, h10, hex, hkill, hwork]
    exact ⟨a1, a2, a3, a4, by omega⟩
  · intro k hm
    rw [h9] at hm
    obtain ⟨a1, a2, a3, a4, a5, a6, a7⟩ := hI.push k hm
    rw [h1, h10, hex, hkill, hwork]
    exact ⟨a1, a2, a3, a4, by omega, a6, a7⟩
  · intro hm
    rw [h9] at hm
    obtain ⟨a1, a2, a3, a4, a5, a6⟩ := hI.wait hm
    rw [h1, h10, hex, hkill, hwork]
    exact ⟨a1, a2, a3, by omega, a5, a6⟩
  · intro hm
    rw [h9] at hm
    rw [h1]
    exact hI.term hm
  · intro hm
    rw [h9] at hm
    obtain ⟨a1, a2, a3, a4⟩ := hI.done hm
    rw [h1, h10]
    exact ⟨by omega, a2, a3, hdone hm⟩

theorem mkIdle_fields (jobs : List Py) (c : Nat) :
    (mkIdle jobs c).input = jobs.map wrapJob ∧
    (mkIdle jobs c).totalJobs = jobs.length ∧
    (mkIdle jobs c).output = [] ∧
    (mkIdle jobs c).delivered = [] ∧
    (mkIdle jobs c).activeWorkers = 0 ∧
    (mkIdle jobs c).cores = (c : Int) ∧
    (mkIdle jobs c).killFlag = false ∧
    (mkIdle jobs c).pool = some () ∧
    (mkIdle jobs c).workers = List.replicate c freshW ∧
    (mkIdle jobs c).main = .idle ∧
    (mkIdle jobs c).pushedSentinels = 0 := by
  obtain ⟨h1, h2, h3, h4, h5, h6, h7, h8, h9, h10, h11⟩ :=
    addJobs_fields jobs
      { input := []
        output := []
        delivered := []
        totalJobs := 0
        activeWorkers := 0
        cores := (c : Int)
        killFlag := false
        pool := some ()
        workers := List.replicate c freshW
        main := .idle
        pushedSentinels := 0 }
  exact ⟨by simpa using h1, by simpa using h2, h3, h4, h5, h6, h7, h8, h9, h10, h11⟩

/-- The invariant holds at the moment `closePool` is entered. -/
theorem closeInv_init (jobs : List Py) (c : Nat) :
    CloseInv jobs.length c (initClose jobs c) := by
  obtain ⟨h1, h2, h3, h4, h5, h6, h7, h8, h9, h10, h11⟩ := mkIdle_fields jobs c
  refine ⟨?_, ?_, ?_, ?_, ?_, ?_, ?_, ?_, ?_, ?_, ?_, ?_, ?_, ?_, ?_⟩ <;>
    simp [initClose, h1, h2, h3, h4, h5, h6, h7, h8, h9, h10, h11,
      isum_replicate, wsum_replicate, WShape, freshW, nsent_append,
      nsent_map_wrap, njobs_append, njobs_map_wrap, wExitish, wKilled,
      wWorking]

/-- A `getResults` call preserves the invariant (results move from the
output queue to the ghost `delivered` history, their total unchanged). -/
theorem closeInv_gr {N c : Nat} {s : PoolSt} (hI : CloseInv N c s) :
    CloseInv N c (getResultsFun s).2.2 := by
  unfold getResultsFun
  split
  · exact hI
  · refine hI.transfer rfl ?_ rfl rfl rfl rfl rfl rfl rfl hI.shapes hI.active
      rfl rfl rfl ?_
    · simp [drainLoop_fst]
      omega
    · intro hm
      exact (hI.done hm).2.2.2

/-- A step of the caller thread inside `closePool` preserves the invariant. -/
theorem closeInv_stepM {N c : Nat} {p : Params} {s t : PoolSt}
    (hI : CloseInv N c s) (h : stepM p s = some t) : CloseInv N c t := by
  cases hm : s.main with
  | idle => exact absurd hm hI.notIdle
  | mError => exact absurd hm hI.notErr
  | rWait n => exact absurd hm (hI.notR n).1
  | rJoin n => exact absurd hm (hI.notR n).2.1
  | rClear n => exact absurd hm (hI.notR n).2.2.1
  | rSet n => exact absurd hm (hI.notR n).2.2.2.1
  | rStart n => exact absurd hm (hI.notR n).2.2.2.2
  | cDone => simp [stepM, hm] at h
  | cCheck =>
    obtain ⟨a1, a2, a3, a4, a5⟩ := hI.check hm
    simp [stepM, hm] at h
    split at h
    case isTrue hc =>
      first
      | subst h
      | (injection h with h; subst h)
      have hout : s.output.length = N := by rw [hc, hI.total]
      have hdel : s.delivered.length = 0 := by omega
      have hwork : wsum wWorking s.workers = 0 := by omega
      have hjobs : njobs s.input = 0 := by omega
      have hcT : s.cores.toNat = c := by rw [hI.coresEq]; simp
      refine ⟨hI.total, hI.coresEq, hI.flag, hI.wlen, hI.poolEq, hI.shapes,
        hI.active, by simp, by simp, by simp, by simp, ?_, by simp, by simp,
        by simp⟩
      intro k hk
      simp [hcT] at hk
      obtain rfl := hk
      exact ⟨le_refl c, by dsimp only; omega, hjobs, hwork,
        by dsimp only; omega, by dsimp only; omega, a4⟩
    case isFalse hc =>
      first
      | subst h
      | (injection h with h; subst h)
      exact hI
  | cPush k =>
    cases k with
    | zero =>
      obtain ⟨a1, a2, a3, a4, a5, a6, a7⟩ := hI.push 0 hm
      simp [stepM, hm] at h
      first
      | subst h
      | (injection h with h; subst h)
      refine ⟨hI.total, hI.coresEq, hI.flag, hI.wlen, hI.poolEq, hI.shapes,
        hI.active, by simp, by simp, by simp, by simp, by simp, ?_, by simp,
        by simp⟩
      intro _
      exact ⟨by dsimp only; omega, a3, a4, a5, by dsimp only; omega, a7⟩
    | succ k =>
      obtain ⟨a1, a2, a3, a4, a5, a6, a7⟩ := hI.push (k + 1) hm
      simp [stepM, hm] at h
      first
      | subst h
      | (injection h with h; subst h)
      refine ⟨hI.total, hI.coresEq, hI.flag, hI.wlen, hI.poolEq, hI.shapes,
        hI.active, by simp, by simp, by simp, by simp, ?_, by simp, by simp,
        by simp⟩
      intro k2 hk2
      simp at hk2
      obtain rfl := hk2
      refine ⟨by omega, by dsimp only; omega, ?_, a4,
        by dsimp only; omega, ?_, a7⟩
      · dsimp only
        rw [njobs_append]
        simp [njobs, a3]
      · dsimp only
        rw [nsent_append]
        simp [nsent]
        omega
  | cWait =>
    obtain ⟨a1, a2, a3, a4, a5, a6⟩ := hI.wait (Or.inl hm)
    simp [stepM, hm] at h
    split at h
    case isTrue hc =>
      first
      | subst h
      | (injection h with h; subst h)
      refine ⟨hI.total, hI.coresEq, hI.flag, hI.wlen, hI.poolEq, hI.shapes,
        hI.active, by simp, by simp, by simp, by simp, by simp, ?_, ?_,
        by simp⟩
      · intro _
        exact ⟨a1, a2, a3, a4, a5, a6⟩
      · intro _
        exact hc
    case isFalse hc =>
      first
      | subst h
      | (injection h with h; subst h)
      exact hI
  | cTerm =>
    obtain ⟨a1, a2, a3, a4, a5, a6⟩ := hI.wait (Or.inr hm)
    have hin : s.input = [] := hI.term hm
    rw [hin] at a5
    simp [nsent] at a5
    have hall : ∀ w ∈ s.workers, wExitish w = 1 :=
      wsum_eq_length_all wExitish_le_one (by rw [a5, hI.wlen])
    simp [stepM, hm] at h
    first
    | subst h
    | (injection h with h; subst h)
    refine ⟨hI.total, hI.coresEq, hI.flag, by simp [hI.wlen], hI.poolEq, ?_,
      ?_, by simp, by simp, by simp, by simp, by simp, by simp, by simp, ?_⟩
    · intro w hw
      dsimp only at hw
      obtain ⟨w0, hw0, rfl⟩ := List.mem_map.mp hw
      have hsh := hI.shapes w0 hw0
      rcases wExitish_eq_one (hall w0 hw0) with hst | hst <;>
        simp [killW, hst, WShape] <;>
        simpa [WShape, hst] using hsh
    · dsimp only
      rw [isum_map_killW]
      exact hI.active
    · intro _
      refine ⟨by dsimp only; omega, hin, a1, ?_⟩
      intro w hw
      dsimp only at hw
      obtain ⟨w0, hw0, rfl⟩ := List.mem_map.mp hw
      rcases wExitish_eq_one (hall w0 hw0) with hst | hst <;>
        simp [killW, hst]


/-- A step of any worker process preserves the invariant. -/
theorem closeInv_stepW {N c : Nat} {f : Py → Py} {s t : PoolSt} {i : Nat}
    (hI : CloseInv N c s) (h : stepW f s i = some t) : CloseInv N c t := by
  cases hw : s.workers[i]? with
  | none => simp [stepW, hw] at h
  | some w =>
    have hmem : w ∈ s.workers := List.getElem?_mem hw
    have hshp : WShape w := hI.shapes w hmem
    cases hst : w.st with
    | exited => simp [stepW, hw, hst] at h
    | killed => simp [stepW, hw, hst] at h
    | entry =>
      obtain ⟨e1, e2⟩ : w.incs = 0 ∧ w.decs = 0 := by
        simpa [WShape, hst] using hshp
      simp [stepW, hw, hst] at h
      first
      | subst h
      | (injection h with h; subst h)
      have hiso := isum_set hw { w with st := .loopTop, incs := w.incs + 1 }
      have hwo := wsum_set (g := wWorking) hw { w with st := .loopTop, incs := w.incs + 1 }
      have hex := wsum_set (g := wExitish) hw { w with st := .loopTop, incs := w.incs + 1 }
      have hki := wsum_set (g := wKilled) hw { w with st := .loopTop, incs := w.incs + 1 }
      simp [wWorking, wExitish, wKilled, hst] at hwo hex hki
      dsimp only at hiso
      refine hI.transfer rfl rfl rfl rfl rfl rfl rfl rfl (by simp) ?_ ?_
        (by dsimp only; omega) (by dsimp only; omega) (by dsimp only; omega) ?_
      · intro x hx
        rcases List.mem_or_eq_of_mem_set hx with hx2 | rfl
        · exact hI.shapes x hx2
        · simp [WShape, e1, e2]
      · dsimp only
        rw [hI.active]
        omega
      · intro hm
        exfalso
        rcases (hI.done hm).2.2.2 w hmem with h1 | h1 <;> rw [hst] at h1 <;>
          cases h1
    | checkFlag =>
      obtain ⟨e1, e2⟩ : w.incs = 1 ∧ w.decs = 0 := by
        simpa [WShape, hst] using hshp
      simp [stepW, hw, hst, hI.flag] at h
      first
      | subst h
      | (injection h with h; subst h)
      have hiso := isum_set hw { w with st := .loopTop }
      have hwo := wsum_set (g := wWorking) hw { w with st := .loopTop }
      have hex := wsum_set (g := wExitish) hw { w with st := .loopTop }
      have hki := wsum_set (g := wKilled) hw { w with st := .loopTop }
      simp [wWorking, wExitish, wKilled, hst] at hwo hex hki
      dsimp only at hiso
      refine hI.transfer rfl rfl rfl rfl
        (by dsimp only; exact hI.flag.symm) rfl rfl rfl (by simp) ?_ ?_
        (by dsimp only; omega) (by dsimp only; omega) (by dsimp only; omega) ?_
      · intro x hx
        rcases List.mem_or_eq_of_mem_set hx with hx2 | rfl
        · exact hI.shapes x hx2
        · simp [WShape, e1, e2]
      · dsimp only
        rw [hI.active]
        omega
      · intro hm
        exfalso
        rcases (hI.done hm).2.2.2 w hmem with h1 | h1 <;> rw [hst] at h1 <;>
          cases h1
    | exiting =>
      obtain ⟨e1, e2⟩ : w.incs = 1 ∧ w.decs = 0 := by
        simpa [WShape, hst] using hshp
      simp [stepW, hw, hst] at h
      first
      | subst h
      | (injection h with h; subst h)
      have hiso := isum_set hw { w with st := .exited, decs := w.decs + 1 }
      have hwo := wsum_set (g := wWorking) hw { w with st := .exited, decs := w.decs + 1 }
      have hex := wsum_set (g := wExitish) hw { w with st := .exited, decs := w.decs + 1 }
      have hki := wsum_set (g := wKilled) hw { w with st := .exited, decs := w.decs + 1 }
      simp [wWorking, wExitish, wKilled, hst] at hwo hex hki
      dsimp only at hiso
      refine hI.transfer rfl rfl rfl rfl rfl rfl rfl rfl (by simp) ?_ ?_
        (by dsimp only; omega) (by dsimp only; omega) (by dsimp only; omega) ?_
      · intro x hx
        rcases List.mem_or_eq_of_mem_set hx with hx2 | rfl
        · exact hI.shapes x hx2
        · simp [WShape, e1, e2]
      · dsimp only
        rw [hI.active]
        omega
      · intro hm
        exfalso
        rcases (hI.done hm).2.2.2 w hmem with h1 | h1 <;> rw [hst] at h1 <;>
          cases h1
    | working v =>
      obtain ⟨e1, e2⟩ : w.incs = 1 ∧ w.decs = 0 := by
        simpa [WShape, hst] using hshp
      have hwin : wWorking w = 1 := by simp [wWorking, hst]
      simp [stepW, hw, hst] at h
      first
      | subst h
      | (injection h with h; subst h)
      have hiso := isum_set hw { w with st := .checkFlag }
      have hwo := wsum_set (g := wWorking) hw { w with st := .checkFlag }
      have hex := wsum_set (g := wExitish) hw { w with st := .checkFlag }
      have hki := wsum_set (g := wKilled) hw { w with st := .checkFlag }
      simp [wWorking, wExitish, wKilled, hst] at hwo hex hki
      dsimp only at hiso
      have hge : 1 ≤ wsum wWorking s.workers := by
        have := le_wsum_of_mem (g := wWorking) hmem
        omega
      refine ⟨hI.total, hI.coresEq, hI.flag, by simp [hI.wlen], hI.poolEq,
        ?_, ?_, by dsimp only; exact hI.notIdle, by dsimp only; exact hI.notErr,
        by dsimp only; exact hI.notR, ?_, ?_, ?_, ?_, ?_⟩
      · intro x hx
        dsimp only at hx
        rcases List.mem_or_eq_of_mem_set hx with hx2 | rfl
        · exact hI.shapes x hx2
        · simp [WShape, e1, e2]
      · dsimp only
        rw [hI.active]
        omega
      · intro hm
        dsimp only at hm
        obtain ⟨a1, a2, a3, a4, a5⟩ := hI.check hm
        refine ⟨a1, a2, by dsimp only; omega, by dsimp only; omega, ?_⟩
        dsimp only
        rw [List.length_append]
        simp only [List.length_cons, List.length_nil]
        omega
      · intro k hk
        dsimp only at hk
        obtain ⟨a1, a2, a3, a4, a5, a6, a7⟩ := hI.push k hk
        exact absurd a4 (by omega)
      · intro hm
        dsimp only at hm
        obtain ⟨a1, a2, a3, a4, a5, a6⟩ := hI.wait hm
        exact absurd a3 (by omega)
      · intro hm
        dsimp only at hm
        obtain ⟨a1, a2, a3, a4, a5, a6⟩ := hI.wait (Or.inr hm)
        exact absurd a3 (by omega)
      · intro hm
        dsimp only at hm
        exfalso
        rcases (hI.done hm).2.2.2 w hmem with h1 | h1 <;> rw [hst] at h1 <;>
          cases h1
    | loopTop =>
      obtain ⟨e1, e2⟩ : w.incs = 1 ∧ w.decs = 0 := by
        simpa [WShape, hst] using hshp
      cases hin : s.input with
      | nil => simp [stepW, hw, hst, hin] at h
      | cons v rest =>
        by_cases hv : v = Py.pynone
        · simp [stepW, hw, hst, hin, hv] at h
          first
          | subst h
          | (injection h with h; subst h)
          have hiso := isum_set hw { w with st := .exiting }
          have hwo := wsum_set (g := wWorking) hw { w with st := .exiting }
          have hex := wsum_set (g := wExitish) hw { w with st := .exiting }
          have hki := wsum_set (g := wKilled) hw { w with st := .exiting }
          simp [wWorking, wExitish, wKilled, hst] at hwo hex hki
          dsimp only at hiso
          have hns : nsent s.input = 1 + nsent rest := by simp [hin, nsent, hv]
          have hnj : njobs s.input = njobs rest := by simp [hin, njobs, hv]
          refine ⟨hI.total, hI.coresEq, hI.flag, by simp [hI.wlen], hI.poolEq,
            ?_, ?_, by dsimp only; exact hI.notIdle,
            by dsimp only; exact hI.notErr, by dsimp only; exact hI.notR,
            ?_, ?_, ?_, ?_, ?_⟩
          · intro x hx
            dsimp only at hx
            rcases List.mem_or_eq_of_mem_set hx with hx2 | rfl
            · exact hI.shapes x hx2
            · simp [WShape, e1, e2]
          · dsimp only
            rw [hI.active]
            omega
          · intro hm
            dsimp only at hm
            obtain ⟨a1, a2, a3, a4, a5⟩ := hI.check hm
            exact absurd a1 (by omega)
          · intro k hk
            dsimp only at hk
            obtain ⟨a1, a2, a3, a4, a5, a6, a7⟩ := hI.push k hk
            refine ⟨a1, a2, by dsimp only; omega, by dsimp only; omega,
              by dsimp only; omega, by dsimp only; omega, by dsimp only; omega⟩
          · intro hm
            dsimp only at hm
            obtain ⟨a1, a2, a3, a4, a5, a6⟩ := hI.wait hm
            refine ⟨a1, by dsimp only; omega, by dsimp only; omega,
              by dsimp only; omega, by dsimp only; omega, by dsimp only; omega⟩
          · intro hm
            dsimp only at hm
            have := hI.term hm
            rw [this] at hin
            cases hin
          · intro hm
            dsimp only at hm
            exfalso
            rcases (hI.done hm).2.2.2 w hmem with h1 | h1 <;> rw [hst] at h1 <;>
              cases h1
        · simp [stepW, hw, hst, hin, hv] at h
          first
          | subst h
          | (injection h with h; subst h)
          have hiso := isum_set hw { w with st := .working v }
          have hwo := wsum_set (g := wWorking) hw { w with st := .working v }
          have hex := wsum_set (g := wExitish) hw { w with st := .working v }
          have hki := wsum_set (g := wKilled) hw { w with st := .working v }
          simp [wWorking, wExitish, wKilled, hst] at hwo hex hki
          dsimp only at hiso
          have hns : nsent s.input = nsent rest := by simp [hin, nsent, hv]
          have hnj : njobs s.input = 1 + njobs rest := by simp [hin, njobs, hv]
          refine ⟨hI.total, hI.coresEq, hI.flag, by simp [hI.wlen], hI.poolEq,
            ?_, ?_, by dsimp only; exact hI.notIdle,
            by dsimp only; exact hI.notErr, by dsimp only; exact hI.notR,
            ?_, ?_, ?_, ?_, ?_⟩
          · intro x hx
            dsimp only at hx
            rcases List.mem_or_eq_of_mem_set hx with hx2 | rfl
            · exact hI.shapes x hx2
            · simp [WShape, e1, e2]
          · dsimp only
            rw [hI.active]
            omega
          · intro hm
            dsimp only at hm
            obtain ⟨a1, a2, a3, a4, a5⟩ := hI.check hm
            refine ⟨by dsimp only; omega, a2, by dsimp only; omega,
              by dsimp only; omega, by dsimp only; omega⟩
          · intro k hk
            dsimp only at hk
            obtain ⟨a1, a2, a3, a4, a5, a6, a7⟩ := hI.push k hk
            exact absurd a3 (by omega)
          · intro hm
            dsimp only at hm
            obtain ⟨a1, a2, a3, a4, a5, a6⟩ := hI.wait hm
            exact absurd a2 (by omega)
          · intro hm
            dsimp only at hm
            have := hI.term hm
            rw [this] at hin
            cases hin
          · intro hm
            dsimp only at hm
            exfalso
            rcases (hI.done hm).2.2.2 w hmem with h1 | h1 <;> rw [hst] at h1 <;>
              cases h1

/-- Any enabled transition preserves the invariant (a `closePool` or
`updateCoreNumber` call is impossible: the caller thread is already inside
`closePool`). -/
theorem closeInv_step {N c : Nat} {p : Params} {ch : Choice} {s t : PoolSt}
    (hI : CloseInv N c s) (h : step p ch s = some t) : CloseInv N c t := by
  cases ch with
  | w i => exact closeInv_stepW hI h
  | m => exact closeInv_stepM hI h
  | gr =>
    simp [step] at h
    first
    | subst h
    | (injection h with h; subst h)
    exact closeInv_gr hI
  | callClose => simp [step, hI.notIdle] at h
  | callResize n => simp [step, hI.notIdle] at h

/-- The invariant is preserved along any trace. -/
theorem closeInv_run {N c : Nat} {p : Params} {tr : List Choice} {s t : PoolSt}
    (hI : CloseInv N c s) (h : runTrace p tr s = some t) : CloseInv N c t := by
  induction tr generalizing s with
  | nil =>
    simp [runTrace] at h
    subst h
    exact hI
  | cons ch tr ih =>
    rw [runTrace] at h
    cases hs : step p ch s with
    | none => rw [hs] at h; cases h
    | some u =>
      rw [hs] at h
      exact ih (closeInv_step hI hs) h

/-- Every state reachable after `closePool` is entered satisfies the
invariant. -/
theorem closeInv_reach {p : Params} {jobs : List Py} {c : Nat} {s : PoolSt}
    (h : ReachClose p jobs c s) : CloseInv jobs.length c s := by
  obtain ⟨tr, htr⟩ := h
  exact closeInv_run (closeInv_init jobs c) htr

/-- Net counter contribution of a list of dead workers: each exited worker
contributes 0 (it decremented), each killed worker 1 (it never did). -/
theorem isum_eq_wsum_killed {ws : List Worker}
    (h : ∀ w ∈ ws, (w.st = .exited ∨ w.st = .killed) ∧ WShape w) :
    isum ws = (wsum wKilled ws : Int) := by
  induction ws with
  | nil => simp [isum, wsum]
  | cons a t ih =>
    obtain ⟨hst, hsh⟩ := h a (by simp)
    have ht := ih (fun w hw => h w (by simp [hw]))
    rcases hst with hst | hst <;>
      simp [isum, wsum, wKilled, hst, ht] <;>
      simp [WShape, hst] at hsh <;>
      omega

/-- Concrete parameter set used by the witnesses: the identity worker
function and a platform reporting 4 cores. -/
def pW : Params := ⟨fun v => v, some 4⟩

/-- Schedule witnessing a full `closePool` run on one job and one core. -/
def c1Trace : List Choice :=
  [.w 0, .w 0, .w 0, .w 0, .m, .m, .m, .m, .w 0, .w 0, .m, .m]

/-- Final state of the `c1Trace` schedule. -/
def c1St : PoolSt :=
  (runTrace pW c1Trace (initClose [Py.pyint 7] 1)).getD (initClose [Py.pyint 7] 1)

/-- C1: for every sequence of jobs submitted via `addJob` to a pool with any
core count at least 1, in every state where `closePool` has returned, the
total number of results (those already taken by `getResults` calls plus
those still queued) equals the number of submitted jobs, and one further
`getResults` call has delivered all of them. -/
theorem c1_close_yields_all_results (p : Params) (jobs : List Py) (c : Nat)
    (hc : 1 ≤ c) (s : PoolSt) (hr : ReachClose p jobs c s)
    (hd : s.main = .cDone) :
    s.delivered.length + s.output.length = jobs.length ∧
    ∀ t, step p .gr s = some t → t.delivered.length = jobs.length := by
  have hI := closeInv_reach hr
  obtain ⟨a1, a2, a3, a4⟩ := hI.done hd
  refine ⟨by omega, ?_⟩
  intro t ht
  simp [step] at ht
  first
  | subst ht
  | (injection ht with ht; subst ht)
  unfold getResultsFun
  split
  case isTrue hout =>
    rw [hout] at a1
    simp at a1
    dsimp only
    omega
  case isFalse hout =>
    simp [drainLoop_fst]
    omega

/-- Witness for C1: one job, one core, a concrete full schedule. -/
theorem c1_witness :
    (1 ≤ 1 ∧ ReachClose pW [Py.pyint 7] 1 c1St ∧ c1St.main = .cDone) ∧
    (c1St.delivered.length + c1St.output.length = 1 ∧
      ∀ t, step pW .gr c1St = some t → t.delivered.length = 1) :=
  ⟨⟨le_refl 1, ⟨c1Trace, by decide⟩, by decide⟩,
    c1_close_yields_all_results pW [Py.pyint 7] 1 (le_refl 1) c1St
      ⟨c1Trace, by decide⟩ (by decide)⟩

/-- C2: in every reachable state of a `closePool` run on a pool of `c`
workers: the count check is passed exactly when the output queue size equals
the submitted total, and then the pushing phase is entered with exactly
`c` sentinels to push (`c` being both the core-count counter value and the
number of workers); once in the waiting phase, exactly `c` sentinels have
been pushed; and the teardown phase is entered only once the job queue was
observed empty. -/
theorem c2_sentinel_count (p : Params) (jobs : List Py) (c : Nat)
    (s : PoolSt) (hr : ReachClose p jobs c s) :
    (s.main = .cCheck → ∀ t, step p .m s = some t → t.main ≠ .cCheck →
      s.output.length = s.totalJobs ∧ t.main = .cPush c ∧
      s.cores = (c : Int) ∧ s.workers.length = c) ∧
    (s.main = .cWait ∨ s.main = .cTerm ∨ s.main = .cDone →
      s.pushedSentinels = c ∧ s.workers.length = c) ∧
    (s.main = .cWait → ∀ t, step p .m s = some t → t.main = .cTerm →
      s.input = []) ∧
    (s.main = .cTerm → s.input = []) := by
  have hI := closeInv_reach hr
  have hcT : s.cores.toNat = c := by rw [hI.coresEq]; simp
  refine ⟨?_, ?_, ?_, hI.term⟩
  · intro hm t ht hne
    simp [step, stepM, hm] at ht
    split at ht
    case isTrue hc =>
      first
      | subst ht
      | (injection ht with ht; subst ht)
      exact ⟨hc, by simp [hcT], hI.coresEq, hI.wlen⟩
    case isFalse hc =>
      first
      | subst ht
      | (injection ht with ht; subst ht)
      exact absurd hm hne
  · intro hm
    rcases hm with hm | hm | hm
    · exact ⟨(hI.wait (Or.inl hm)).1, hI.wlen⟩
    · exact ⟨(hI.wait (Or.inr hm)).1, hI.wlen⟩
    · exact ⟨(hI.done hm).2.2.1, hI.wlen⟩
  · intro hm t ht htm
    simp [step, stepM, hm] at ht
    split at ht
    case isTrue hc => exact hc
    case isFalse hc =>
      first
      | subst ht
      | (injection ht with ht; subst ht)
      rw [hm] at htm
      cases htm

/-- Schedule witnessing the sentinel-pushing phase on zero jobs, one core. -/
def c2Trace : List Choice := [.m, .m, .m]

/-- State just after `closePool` entered its queue-drain wait. -/
def c2St : PoolSt :=
  (runTrace pW c2Trace (initClose [] 1)).getD (initClose [] 1)

/-- Witness for C2: after the concrete pushing phase on a one-core pool,
exactly one sentinel has been pushed. -/
theorem c2_witness :
    ReachClose pW [] 1 c2St ∧
    (c2St.main = .cWait ∨ c2St.main = .cTerm ∨ c2St.main = .cDone) ∧
    c2St.pushedSentinels = 1 ∧ c2St.workers.length = 1 :=
  ⟨⟨c2Trace, by decide⟩,
    Or.inl (by decide),
    (c2_sentinel_count pW [] 1 c2St ⟨c2Trace, by decide⟩).2.1
      (Or.inl (by decide))⟩

/-- C3: in every reachable state of a `closePool` run, each worker has
incremented the active-worker counter exactly once unless it is still before
its loop entry, and decremented it exactly once if and only if it completed
the loop; moreover every single worker action behaves as the loop body
prescribes: a pulled sentinel makes the worker leave the loop without
pushing a result; a pulled job leads to exactly one result being pushed,
the worker function applied to the pulled argument list; after the push the
worker leaves the loop if and only if the stop flag is set; the entry action
increments and the exit action decrements the counter. -/
theorem c3_worker_loop (p : Params) (jobs : List Py) (c : Nat) (s : PoolSt)
    (hr : ReachClose p jobs c s) :
    (∀ w ∈ s.workers,
      (w.incs = if w.st = .entry then 0 else 1) ∧
      (w.decs = if w.st = .exited then 1 else 0)) ∧
    (∀ u : PoolSt, ∀ i : Nat, ∀ w : Worker, u.workers[i]? = some w →
      (w.st = .loopTop → ∀ v rest, u.input = v :: rest →
        ∀ t, stepW p.f u i = some t →
          (v = .pynone → t.workers = u.workers.set i { w with st := .exiting } ∧
            t.output = u.output ∧ t.input = rest) ∧
          (v ≠ .pynone → t.workers = u.workers.set i { w with st := .working v } ∧
            t.output = u.output ∧ t.input = rest)) ∧
      (∀ v, w.st = .working v → ∀ t, stepW p.f u i = some t →
        t.output = u.output ++ [p.f v] ∧
        t.workers = u.workers.set i { w with st := .checkFlag }) ∧
      (w.st = .checkFlag → ∀ t, stepW p.f u i = some t →
        t.workers = u.workers.set i
          { w with st := if u.killFlag then .exiting else .loopTop } ∧
        t.output = u.output) ∧
      (w.st = .entry → ∀ t, stepW p.f u i = some t →
        t.activeWorkers = u.activeWorkers + 1 ∧ t.output = u.output ∧
        t.workers = u.workers.set i { w with st := .loopTop, incs := w.incs + 1 }) ∧
      (w.st = .exiting → ∀ t, stepW p.f u i = some t →
        t.activeWorkers = u.activeWorkers - 1 ∧ t.output = u.output ∧
        t.workers = u.workers.set i { w with st := .exited, decs := w.decs + 1 })) := by
  have hI := closeInv_reach hr
  constructor
  · intro w hw
    have hsh := hI.shapes w hw
    cases hst : w.st <;> simp [WShape, hst] at hsh <;> simp [hst, hsh]
  · intro u i w hw
    refine ⟨?_, ?_, ?_, ?_, ?_⟩
    · intro hst v rest hin t ht
      constructor
      · intro hv
        subst hv
        simp [stepW, hw, hst, hin] at ht
        first
        | subst ht
        | (injection ht with ht; subst ht)
        exact ⟨rfl, rfl, rfl⟩
      · intro hv
        simp [stepW, hw, hst, hin, hv] at ht
        first
        | subst ht
        | (injection ht with ht; subst ht)
        exact ⟨rfl, rfl, rfl⟩
    · intro v hst t ht
      simp [stepW, hw, hst] at ht
      first
      | subst ht
      | (injection ht with ht; subst ht)
      exact ⟨rfl, rfl⟩
    · intro hst t ht
      simp [stepW, hw, hst] at ht
      first
      | subst ht
      | (injection ht with ht; subst ht)
      exact ⟨rfl, rfl⟩
    · intro hst t ht
      simp [stepW, hw, hst] at ht
      first
      | subst ht
      | (injection ht with ht; subst ht)
      exact ⟨rfl, rfl, rfl⟩
    · intro hst t ht
      simp [stepW, hw, hst] at ht
      first
      | subst ht
      | (injection ht with ht; subst ht)
      exact ⟨rfl, rfl, rfl⟩

/-- State with the single worker past its entry increment. -/
def c3St : PoolSt :=
  (runTrace pW [.w 0] (initClose [] 1)).getD (initClose [] 1)

/-- Witness for C3: in the concrete state after the entry action, the ghost
counts read one increment and no decrement. -/
theorem c3_witness :
    ReachClose pW [] 1 c3St ∧
    (∀ w ∈ c3St.workers,
      (w.incs = if w.st = .entry then 0 else 1) ∧
      (w.decs = if w.st = .exited then 1 else 0)) :=
  ⟨⟨[.w 0], by decide⟩,
    (c3_worker_loop pW [] 1 c3St ⟨[.w 0], by decide⟩).1⟩

/-- Schedule on zero jobs and one core in which the worker consumes its
sentinel but `pool.terminate()` arrives before the worker reaches its
`active_workers.decrement()`. -/
def c5Trace : List Choice := [.w 0, .m, .m, .m, .w 0, .m, .m]

/-- Final state of the `c5Trace` schedule: `closePool` has returned. -/
def c5St : PoolSt :=
  (runTrace pW c5Trace (initClose [] 1)).getD (initClose [] 1)

/-- Counterexample to C5 as stated: a reachable state in which `closePool`
has returned while the active-worker counter reads 1, not 0 — the single
worker consumed its sentinel (so the job queue was observed empty) but was
terminated before executing its decrement. -/
theorem c5_counterexample :
    ReachClose pW [] 1 c5St ∧ c5St.main = .cDone ∧
    c5St.activeWorkers = 1 ∧ c5St.activeWorkers ≠ 0 :=
  ⟨⟨c5Trace, by decide⟩, by decide, by decide, by decide⟩

/-- C5 (amended): after `closePool` returns, every worker has either
completed the loop or been terminated, no worker action remains enabled, and
the active-worker counter reads exactly the number of workers terminated
between their sentinel consumption and their decrement — 0 exactly when no
worker was killed in that window, which `closePool` does not wait for. -/
theorem c5_after_close (p : Params) (jobs : List Py) (c : Nat) (s : PoolSt)
    (hr : ReachClose p jobs c s) (hd : s.main = .cDone) :
    (∀ w ∈ s.workers, w.st = .exited ∨ w.st = .killed) ∧
    (∀ i, stepW p.f s i = none) ∧
    s.activeWorkers = (wsum wKilled s.workers : Int) ∧
    (wsum wKilled s.workers = 0 → s.activeWorkers = 0) := by
  have hI := closeInv_reach hr
  obtain ⟨a1, a2, a3, a4⟩ := hI.done hd
  have hisum : isum s.workers = (wsum wKilled s.workers : Int) :=
    isum_eq_wsum_killed (fun w hw => ⟨a4 w hw, hI.shapes w hw⟩)
  refine ⟨a4, ?_, by rw [hI.active, hisum], ?_⟩
  · intro i
    cases hw : s.workers[i]? with
    | none => simp [stepW, hw]
    | some w =>
      rcases a4 w (List.getElem?_mem hw) with hst | hst <;>
        simp [stepW, hw, hst]
  · intro h0
    rw [hI.active, hisum, h0]
    simp

/-- Witness for the amended C5 at the `c5Trace` final state: the worker was
killed pre-decrement, so the counter reads the number of killed workers. -/
theorem c5_witness :
    (ReachClose pW [] 1 c5St ∧ c5St.main = .cDone) ∧
    ((∀ w ∈ c5St.workers, w.st = .exited ∨ w.st = .killed) ∧
      (∀ i, stepW pW.f c5St i = none) ∧
      c5St.activeWorkers = (wsum wKilled c5St.workers : Int) ∧
      (wsum wKilled c5St.workers = 0 → c5St.activeWorkers = 0)) :=
  ⟨⟨⟨c5Trace, by decide⟩, by decide⟩,
    c5_after_close pW [] 1 c5St ⟨c5Trace, by decide⟩ (by decide)⟩

/-- Schedule exhibiting the job-loss race in `updateCoreNumber`: one job is
queued and the single worker has not yet executed its entry increment when
`updateCoreNumber` is called; the resize wait observes an active-worker
count of 0 and proceeds, the worker then wakes, increments, and pulls the
job, and `pool.terminate()` destroys it mid-job. -/
def c4Trace : List Choice :=
  [.callResize (some 1), .m, .w 0, .w 0, .m, .m, .m, .m]

/-- Final state of the `c4Trace` schedule: the resize has returned. -/
def c4St : PoolSt :=
  (runTrace pW c4Trace (mkIdle [Py.pyint 1] 1)).getD (mkIdle [Py.pyint 1] 1)

/-- C4 failing run: after the `c4Trace` resize on a pool with 1 submitted
job, the job is gone — no longer queued, held by no worker, and without a
result — so a later `closePool` would poll forever (`output` size 0 never
equals `total_jobs` 1). This refutes the claim that a resize never drops
queued jobs: the job present in the queue at resize time was consumed and
destroyed by the resize's own `pool.terminate()`. -/
theorem c4_job_lost :
    runTrace pW c4Trace (mkIdle [Py.pyint 1] 1) = some c4St ∧
    c4St.main = .idle ∧
    c4St.totalJobs = 1 ∧
    c4St.input = [] ∧
    c4St.output = [] ∧
    c4St.delivered = [] ∧
    wsum wWorking c4St.workers = 0 ∧
    c4St.output.length ≠ c4St.totalJobs :=
  ⟨by decide, by decide, by decide, by decide, by decide, by decide,
    by decide, by decide⟩

/-- C6: `addJob` increments the total-submitted counter by exactly one and
appends exactly the wrapped job to the input queue; a list job is pushed
unchanged, any non-list job is wrapped into a one-element list; the pushed
value is never the sentinel `None`, even for the job value `None`; nothing
else of the state is touched. -/
theorem c6_addJob (job : Py) (s : PoolSt) :
    (addJob job s).totalJobs = s.totalJobs + 1 ∧
    (addJob job s).input = s.input ++ [wrapJob job] ∧
    wrapJob job ≠ Py.pynone ∧
    (job.isList = true → wrapJob job = job) ∧
    (job.isList = false → wrapJob job = .pylist [job]) ∧
    (addJob job s).output = s.output ∧
    (addJob job s).delivered = s.delivered ∧
    (addJob job s).activeWorkers = s.activeWorkers ∧
    (addJob job s).cores = s.cores ∧
    (addJob job s).killFlag = s.killFlag ∧
    (addJob job s).pool = s.pool ∧
    (addJob job s).workers = s.workers ∧
    (addJob job s).main = s.main := by
  refine ⟨rfl, rfl, wrapJob_ne_pynone job, ?_, ?_, rfl, rfl, rfl, rfl, rfl,
    rfl, rfl, rfl⟩
  · intro h
    simp [wrapJob, h]
  · intro h
    simp [wrapJob, h]

/-- Witness for C6 at the job value `None` itself: the pushed value is the
one-element list `[None]`, distinct from the sentinel. -/
theorem c6_witness :
    Py.pynone.isList = false ∧
    ((addJob Py.pynone (mkIdle [] 1)).totalJobs = (mkIdle [] 1).totalJobs + 1 ∧
      (addJob Py.pynone (mkIdle [] 1)).input =
        (mkIdle [] 1).input ++ [wrapJob Py.pynone] ∧
      wrapJob Py.pynone ≠ Py.pynone ∧
      wrapJob Py.pynone = .pylist [Py.pynone]) :=
  ⟨by decide,
    (c6_addJob Py.pynone (mkIdle [] 1)).1,
    (c6_addJob Py.pynone (mkIdle [] 1)).2.1,
    (c6_addJob Py.pynone (mkIdle [] 1)).2.2.1,
    (c6_addJob Py.pynone (mkIdle [] 1)).2.2.2.2.1 (by decide)⟩

theorem drainLoop_snd (q : List Py) : (drainLoop q).2 = q.length + 1 := by
  induction q with
  | nil => rfl
  | cons v t ih => simp [drainLoop, ih]

/-- C9: `getResults` is a total function: it returns exactly the current
output-queue contents in queue order and empties the queue; when the queue
is empty it performs no `get` at all and returns the empty list, otherwise
it performs one `get(False)` per element plus the one final failing
`get(False)` whose exception ends the loop; nothing else of the state is
touched. -/
theorem c9_getResults (s : PoolSt) :
    (getResultsFun s).1 = s.output ∧
    (getResultsFun s).2.1 = (if s.output = [] then 0 else s.output.length + 1) ∧
    (getResultsFun s).2.2.output = [] ∧
    (getResultsFun s).2.2.delivered = s.delivered ++ s.output ∧
    (getResultsFun s).2.2.input = s.input ∧
    (getResultsFun s).2.2.totalJobs = s.totalJobs ∧
    (getResultsFun s).2.2.activeWorkers = s.activeWorkers ∧
    (getResultsFun s).2.2.cores = s.cores ∧
    (getResultsFun s).2.2.killFlag = s.killFlag ∧
    (getResultsFun s).2.2.pool = s.pool ∧
    (getResultsFun s).2.2.workers = s.workers ∧
    (getResultsFun s).2.2.main = s.main := by
  unfold getResultsFun
  split
  case isTrue h => simp [h]
  case isFalse h => simp [h, drainLoop_fst, drainLoop_snd]

/-- Witness for C9 on a queue holding one result. -/
theorem c9_witness :
    (getResultsFun { mkIdle [] 1 with output := [Py.pyint 3] }).1 =
      { mkIdle [] 1 with output := [Py.pyint 3] }.output ∧
    (getResultsFun { mkIdle [] 1 with output := [Py.pyint 3] }).2.1 =
      (if { mkIdle [] 1 with output := [Py.pyint 3] }.output = [] then 0
        else { mkIdle [] 1 with output := [Py.pyint 3] }.output.length + 1) ∧
    (getResultsFun { mkIdle [] 1 with output := [Py.pyint 3] }).2.2.output = [] :=
  ⟨(c9_getResults { mkIdle [] 1 with output := [Py.pyint 3] }).1,
    (c9_getResults { mkIdle [] 1 with output := [Py.pyint 3] }).2.1,
    (c9_getResults { mkIdle [] 1 with output := [Py.pyint 3] }).2.2.1⟩

/-- State of a pool object whose handle is `None` (as between `self.pool =
None` in `__init__` and `startPool`). -/
def noPoolSt : PoolSt := { mkIdle [] 1 with pool := none }

/-- Counterexample to C7 as stated: `closePool` does check for a live pool
handle. Called on a state with `self.pool is None`, it returns immediately
(program counter straight to the returned state), pushes no sentinel,
touches nothing else, and no further `closePool` action is enabled — it does
not proceed, contradicting the claim that neither operation checks the
handle. -/
theorem c7_counterexample :
    step pW .callClose noPoolSt = some { noPoolSt with main := .cDone } ∧
    ({ noPoolSt with main := .cDone } : PoolSt).pushedSentinels = 0 ∧
    ({ noPoolSt with main := .cDone } : PoolSt).input = [] ∧
    stepM pW { noPoolSt with main := .cDone } = none :=
  ⟨by decide, by decide, by decide, by decide⟩

/-- C7 (amended): `updateCoreNumber` has no pool-handle guard — invoked with
no pool it runs into an uncaught `AttributeError` at `self.pool.close()` —
whereas `closePool` does guard: its `if self.pool is not None` makes the
call a no-op when the handle is `None`. -/
theorem c7_no_pool_guard (p : Params) (s : PoolSt) (n : Option Int)
    (hidle : s.main = .idle) (hpool : s.pool = none)
    (hact : s.activeWorkers = 0) :
    step p .callClose s = some { s with main := .cDone } ∧
    runTrace p [.callResize n, .m, .m] s =
      some { s with killFlag := true, main := .mError } := by
  constructor
  · simp [step, hidle, hpool]
  · simp [runTrace, step, stepM, hidle, hpool, hact]

/-- Witness for the amended C7 at the concrete no-pool state. -/
theorem c7_witness :
    (noPoolSt.main = .idle ∧ noPoolSt.pool = none ∧
      noPoolSt.activeWorkers = 0) ∧
    (step pW .callClose noPoolSt = some { noPoolSt with main := .cDone } ∧
      runTrace pW [.callResize none, .m, .m] noPoolSt =
        some { noPoolSt with killFlag := true, main := .mError }) :=
  ⟨⟨by decide, by decide, by decide⟩,
    c7_no_pool_guard pW noPoolSt none (by decide) (by decide) (by decide)⟩

/-- Counterexample to C8 as stated: the explicitly supplied non-positive
core count 0 is not corrected to the platform parallelism 4 — the
constructor resolution passes it through unchanged and pool creation then
fails. -/
theorem c8_counterexample :
    resolveCoresInit (some 0) (some 4) = 0 ∧ (0 : Int) ≠ 4 ∧
    ¬ 1 ≤ (0 : Int) ∧ construct (some 0) (some 4) = none :=
  ⟨by decide, by decide, by decide, by decide⟩

/-- C8 (amended): an omitted core count defaults to the platform
parallelism, with a constructor-only fallback to 1 when the platform reports
none (`updateCoreNumber` lacks that fallback); an explicitly supplied core
count — valid or not — is passed through uncorrected, and pool creation
fails on a non-positive one. -/
theorem c8_core_resolution (n c : Int) (cpu : Option Int) :
    resolveCoresInit none (some n) = n ∧
    resolveCoresInit none none = 1 ∧
    resolveCoresInit (some c) cpu = c ∧
    resolveCoresUpdate none cpu = cpu ∧
    resolveCoresUpdate (some c) cpu = some c ∧
    (c ≤ 0 → construct (some c) cpu = none) := by
  refine ⟨rfl, rfl, rfl, rfl, rfl, ?_⟩
  intro h
  simp [construct, resolveCoresInit]
  omega

/-- Witness for the amended C8 at core count 0 and platform parallelism 4. -/
theorem c8_witness :
    ((0 : Int) ≤ 0) ∧
    (resolveCoresInit none (some 4) = 4 ∧
      resolveCoresInit none none = 1 ∧
      resolveCoresInit (some 0) (some 4) = 0 ∧
      resolveCoresUpdate none (some 4) = some 4 ∧
      resolveCoresUpdate (some 0) (some 4) = some 0 ∧
      construct (some 0) (some 4) = none) :=
  ⟨by decide,
    (c8_core_resolution 4 0 (some 4)).1,
    (c8_core_resolution 4 0 (some 4)).2.1,
    (c8_core_resolution 4 0 (some 4)).2.2.1,
    (c8_core_resolution 4 0 (some 4)).2.2.2.1,
    (c8_core_resolution 4 0 (some 4)).2.2.2.2.1,
    (c8_core_resolution 4 0 (some 4)).2.2.2.2.2 (by decide)⟩

/-- No worker action ever changes the pool handle. -/
theorem stepW_pool {f : Py → Py} {s t : PoolSt} {i : Nat}
    (h : stepW f s i = some t) : t.pool = s.pool := by
  cases hw : s.workers[i]? with
  | none => simp [stepW, hw] at h
  | some w =>
    cases hst : w.st with
    | exited => simp [stepW, hw, hst] at h
    | killed => simp [stepW, hw, hst] at h
    | loopTop =>
      cases hin : s.input with
      | nil => simp [stepW, hw, hst, hin] at h
      | cons v rest =>
        by_cases hv : v = Py.pynone <;>
          simp [stepW, hw, hst, hin, hv] at h <;>
          (first
          | subst h
          | (injection h with h; subst h)) <;> rfl
    | entry =>
      simp [stepW, hw, hst] at h
      first
      | subst h
      | (injection h with h; subst h)
      rfl
    | working v =>
      simp [stepW, hw, hst] at h
      first
      | subst h
      | (injection h with h; subst h)
      rfl
    | checkFlag =>
      simp [stepW, hw, hst] at h
      first
      | subst h
      | (injection h with h; subst h)
      rfl
    | exiting =>
      simp [stepW, hw, hst] at h
      first
      | subst h
      | (injection h with h; subst h)
      rfl

/-- A caller-thread action either keeps the pool handle or installs a fresh
one (`startPool` at the end of `updateCoreNumber`); it never resets it to
`None`. -/
theorem stepM_pool {p : Params} {s t : PoolSt} (h : stepM p s = some t) :
    t.pool = s.pool ∨ t.pool = some () := by
  cases hm : s.main with
  | idle => simp [stepM, hm] at h
  | mError => simp [stepM, hm] at h
  | cDone => simp [stepM, hm] at h
  | cCheck =>
    simp [stepM, hm] at h
    split at h <;>
      (first
      | subst h
      | (injection h with h; subst h)) <;> left <;> rfl
  | cPush k =>
    cases k with
    | zero =>
      simp [stepM, hm] at h
      first
      | subst h
      | (injection h with h; subst h)
      left
      rfl
    | succ k =>
      simp [stepM, hm] at h
      first
      | subst h
      | (injection h with h; subst h)
      left
      rfl
  | cWait =>
    simp [stepM, hm] at h
    split at h <;>
      (first
      | subst h
      | (injection h with h; subst h)) <;> left <;> rfl
  | cTerm =>
    simp [stepM, hm] at h
    first
    | subst h
    | (injection h with h; subst h)
    left
    rfl
  | rWait n =>
    simp [stepM, hm] at h
    split at h <;>
      (first
      | subst h
      | (injection h with h; subst h)) <;> left <;> rfl
  | rJoin n =>
    simp [stepM, hm] at h
    cases hp : s.pool <;> simp [hp] at h <;>
      (first
      | subst h
      | (injection h with h; subst h)) <;> left <;> simp [hp]
  | rClear n =>
    simp [stepM, hm] at h
    first
    | subst h
    | (injection h with h; subst h)
    left
    rfl
  | rSet n =>
    simp [stepM, hm] at h
    cases hres : resolveCoresUpdate n p.cpu <;> simp [hres] at h <;>
      (first
      | subst h
      | (injection h with h; subst h)) <;> left <;> rfl
  | rStart n =>
    simp [stepM, hm] at h
    split at h <;>
      (first
      | subst h
      | (injection h with h; subst h))
    · right
      rfl
    · left
      rfl

/-- Frame of `getResultsFun` on the pool handle. -/
theorem getResultsFun_pool (s : PoolSt) : (getResultsFun s).2.2.pool = s.pool := by
  unfold getResultsFun
  split <;> rfl

/-- C10: the constructor itself starts the pool — the returned state has a
live (non-`None`) handle and its workers already spawned with an empty job
queue — and from then on the handle never becomes `None` again: every
transition (worker or caller-thread action, `closePool` included, which does
not reset the handle) preserves a live handle, as do `addJob` and
`getResults`; consequently a further `closePool` call on a live handle
passes the `if self.pool is not None` guard and re-enters the shutdown
protocol. -/
theorem c10_construction_and_handle (p : Params) :
    (∀ cores cpu s, construct cores cpu = some s →
      s.pool = some () ∧ s.workers = List.replicate s.cores.toNat freshW ∧
      s.input = [] ∧ s.output = [] ∧ s.totalJobs = 0 ∧ s.main = .idle) ∧
    (∀ ch s t, step p ch s = some t → s.pool = some () → t.pool = some ()) ∧
    (∀ job s, (addJob job s).pool = s.pool) ∧
    (∀ s, (getResultsFun s).2.2.pool = s.pool) ∧
    (∀ s, s.main = .idle → s.pool = some () →
      step p .callClose s = some { s with main := .cCheck }) := by
  refine ⟨?_, ?_, fun job s => rfl, getResultsFun_pool, ?_⟩
  · intro cores cpu s h
    dsimp only [construct] at h
    split at h
    case isTrue hc =>
      first
      | subst h
      | (injection h with h; subst h)
      exact ⟨rfl, rfl, rfl, rfl, rfl, rfl⟩
    case isFalse hc => cases h
  · intro ch s t h hsp
    cases ch with
    | w i => rw [stepW_pool h, hsp]
    | m =>
      rcases stepM_pool h with hp | hp
      · rw [hp, hsp]
      · exact hp
    | gr =>
      simp [step] at h
      first
      | subst h
      | (injection h with h; subst h)
      rw [getResultsFun_pool, hsp]
    | callClose =>
      simp [step] at h
      obtain ⟨hm2, h⟩ := h
      rw [hsp] at h
      simp at h
      first
      | subst h
      | (injection h with h; subst h)
      rfl
    | callResize n =>
      simp [step] at h
      obtain ⟨hm2, h⟩ := h
      first
      | subst h
      | (injection h with h; subst h)
      exact hsp
  · intro s h1 h2
    simp [step, h1, h2]

/-- State returned by a concrete construction with two cores. -/
def c10St : PoolSt := (construct (some 2) (some 4)).getD (mkIdle [] 1)

/-- Witness for C10: a concrete construction yields a live handle with the
workers spawned and no job submitted, and a `closePool` call on it enters
the shutdown protocol. -/
theorem c10_witness :
    construct (some 2) (some 4) = some c10St ∧
    (c10St.pool = some () ∧
      c10St.workers = List.replicate c10St.cores.toNat freshW ∧
      c10St.input = [] ∧ c10St.output = [] ∧ c10St.totalJobs = 0 ∧
      c10St.main = .idle) ∧
    step pW .callClose c10St = some { c10St with main := .cCheck } :=
  ⟨by decide,
    (c10_construction_and_handle pW).1 (some 2) (some 4) c10St (by decide),
    (c10_construction_and_handle pW).2.2.2.2 c10St (by decide) (by decide)⟩

end QueuedPool
